import Mathlib

/-!
Verification of the plugin resolution, hook dispatch, task composition and
global-option engine of the Hardhat v-next core.

The repository snapshot contains the engine's caller
(`src/v-next/hardhat/src/internal/core/hre.ts`), the unit tests of the
global-options module (`src/unnamed/part_004`), and the public re-exports
(`src/v-next/core/src/index.ts`), but not the bodies of
`hook-manager.ts`, `plugins/resolve-plugin-list.ts`, `global-options.ts` and
`tasks/task-manager.ts`. Definitions for those modules are therefore
modelled from the specification (their doc comments say so explicitly and
name the missing file); the definitions taken from `hre.ts` are translated
from that source directly.

Modelling conventions, shared by all definitions below:
* asynchronous functions are modelled as pure functions; sequential `await`
  composition becomes ordinary sequential composition;
* a JavaScript side effect is modelled by threading an explicit world value
  of type `ω` through every handler (`α → ω → Except ε β × ω`); a throw is
  `Except.error`, and effects performed before a throw persist, which is why
  the world is returned alongside the error;
* handler registrations are modelled as already-loaded handler lists (lazy
  module loading is a packaging concern that no claim here depends on).
-/

/-! ## Hook dispatch protocols

Modelled from the spec: the two dispatch protocols of `hook-manager.ts`
(not in the snapshot), section 4.3 of the specification. -/

/-- A plain asynchronous handler: takes the hook arguments and the current
world, returns a result (or a thrown error) and the new world. -/
def PlainHandler (ω α ε β : Type) : Type :=
  α → ω → Except ε β × ω

/-- A chain-of-responsibility handler: additionally receives a `next`
continuation that invokes the remainder of the chain. -/
def ChainHandler (ω α ε β : Type) : Type :=
  α → PlainHandler ω α ε β → ω → Except ε β × ω

/-- Modelled from the spec: composition of the handler chain of
`runHandlerChain` in `hook-manager.ts` (not in the snapshot). `handlers` is
in plugin-resolution order; folding from the default implementation
upwards, the handler of the most recently resolved plugin ends up
outermost, and the innermost continuation is `d`, the default
implementation. -/
def composeChain (handlers : List (ChainHandler ω α ε β))
    (d : PlainHandler ω α ε β) : PlainHandler ω α ε β :=
  handlers.foldl (fun next h => fun a w => h a next w) d

/-- Modelled from the spec: `runHandlerChain(category, hookName, args,
defaultImplementation)` of `hook-manager.ts` (not in the snapshot), run on
the handlers registered for one (category, hookName) pair, in
plugin-resolution order. -/
def runHandlerChain (handlers : List (ChainHandler ω α ε β)) (a : α)
    (d : PlainHandler ω α ε β) (w : ω) : Except ε β × ω :=
  composeChain handlers d a w

/-- Modelled from the spec: `runSequentialHandlers(category, hookName,
args)` of `hook-manager.ts` (not in the snapshot): every handler is invoked
in order with the same arguments, results are collected in invocation
order, and a thrown error aborts the remaining invocations. -/
def runSequentialHandlers (handlers : List (PlainHandler ω α ε β)) (a : α)
    (w : ω) : Except ε (List β) × ω :=
  match handlers with
  | [] => (.ok [], w)
  | h :: hs =>
    match h a w with
    | (.error e, w') => (.error e, w')
    | (.ok r, w') =>
      match runSequentialHandlers hs a w' with
      | (.error e, w'') => (.error e, w'')
      | (.ok rs, w'') => (.ok (r :: rs), w'')

/-! ## The hook manager and its context

Modelled from the spec: `HookManagerImplementation` of `hook-manager.ts`
(not in the snapshot), section 4.3 of the specification: the context object
is attached once via `setContext` and passed to every handler invocation;
dispatch before the context is set fails with an invariant violation. -/

/-- Error type of a manager-level dispatch: either the internal-contract
`InvariantViolation` (dispatch before `setContext`) or an error thrown by a
handler. -/
inductive HookDispatchError (ε : Type) where
  | invariantViolation
  | handlerError (e : ε)
deriving DecidableEq, Repr

/-- Modelled from the spec: the state of a `HookManagerImplementation`
(file not in the snapshot). Handler registrations are keyed by hook
category and hook name; each stored handler takes the context as its first
parameter, like the JavaScript handlers do. The sequential and chain views
of the registrations are kept as two fields because the two dispatch
protocols call the same registered functions with different signatures. -/
structure HookManagerState (Ctx ω α ε β ρ : Type) where
  seqHandlers : String → String → List (Ctx → PlainHandler ω α (HookDispatchError ε) β)
  chainHandlers : String → String → List (Ctx → ChainHandler ω α (HookDispatchError ε) ρ)
  context : Option Ctx

/-- A freshly constructed hook manager: registrations present, no context
attached yet. -/
def mkHookManager
    (seq : String → String → List (Ctx → PlainHandler ω α (HookDispatchError ε) β))
    (chain : String → String → List (Ctx → ChainHandler ω α (HookDispatchError ε) ρ)) :
    HookManagerState Ctx ω α ε β ρ :=
  ⟨seq, chain, none⟩

/-- Modelled from the spec: `setContext` of `hook-manager.ts` (not in the
snapshot): attaches the context object to the manager. -/
def HookManagerState.setContext (m : HookManagerState Ctx ω α ε β ρ) (c : Ctx) :
    HookManagerState Ctx ω α ε β ρ :=
  { m with context := some c }

/-- Modelled from the spec: manager-level sequential dispatch. Fails with
an invariant violation when no context is attached; otherwise every
registered handler for (category, hookName) receives the attached
context. -/
def HookManagerState.dispatchSequential (m : HookManagerState Ctx ω α ε β ρ)
    (category hookName : String) (a : α) (w : ω) :
    Except (HookDispatchError ε) (List β) × ω :=
  match m.context with
  | none => (.error .invariantViolation, w)
  | some c =>
    runSequentialHandlers ((m.seqHandlers category hookName).map (fun h => h c)) a w

/-- Modelled from the spec: manager-level chain dispatch. Fails with an
invariant violation when no context is attached; otherwise every registered
handler for (category, hookName) receives the attached context. -/
def HookManagerState.dispatchChain (m : HookManagerState Ctx ω α ε β ρ)
    (category hookName : String) (a : α)
    (d : PlainHandler ω α (HookDispatchError ε) ρ) (w : ω) :
    Except (HookDispatchError ε) ρ × ω :=
  match m.context with
  | none => (.error .invariantViolation, w)
  | some c =>
    runHandlerChain ((m.chainHandlers category hookName).map (fun h => h c)) a d w

/-! ## Concrete handlers used by the chain-ordering claim -/

/-- A chain handler that annotates the argument list with the id of its
plugin and then invokes the remainder of the chain. -/
def annotatingHandler (pluginId : String) : ChainHandler Unit (List String) Unit (List String) :=
  fun a next w => next (a ++ [pluginId]) w

/-- The identity default implementation: returns the (annotated) argument
list unchanged. -/
def identityDefault : PlainHandler Unit (List String) Unit (List String) :=
  fun a w => (.ok a, w)

/-- C1: `runHandlerChain` composes the registered handlers in reverse
resolution order: appending a handler for a more recently resolved plugin
puts it outermost, with its `next` continuation running the chain of the
remaining handlers; the empty chain is exactly the default implementation
(the innermost continuation); and for three plugins A, B, C resolved in
that order, each annotating the argument and calling `next`, the chain
yields the default implementation's result annotated by C first, then B,
then A. -/
theorem runHandlerChain_reverse_resolution_order :
    (∀ (hs : List (ChainHandler ω α ε β)) (h : ChainHandler ω α ε β) (a : α)
      (d : PlainHandler ω α ε β) (w : ω),
      runHandlerChain (hs ++ [h]) a d w
        = h a (fun a' w' => runHandlerChain hs a' d w') w) ∧
    (∀ (a : α) (d : PlainHandler ω α ε β) (w : ω),
      runHandlerChain ([] : List (ChainHandler ω α ε β)) a d w = d a w) ∧
    (runHandlerChain
        [annotatingHandler "A", annotatingHandler "B", annotatingHandler "C"]
        [] identityDefault ()
      = (.ok ["C", "B", "A"], ())) := by
  refine ⟨?_, ?_, rfl⟩
  · intro hs h a d w
    simp [runHandlerChain, composeChain, List.foldl_append]
  · intro a d w
    rfl

/-- C6: dispatching through a hook manager whose context has not been set
fails with an `InvariantViolation`, for both dispatch protocols; and once
`setContext` has attached a context, every handler invocation of either
protocol receives that context (dispatch runs exactly the registered
handlers applied to the attached context). -/
theorem dispatch_requires_context :
    (∀ (seq : String → String → List (Ctx → PlainHandler ω α (HookDispatchError ε) β))
      (chain : String → String → List (Ctx → ChainHandler ω α (HookDispatchError ε) ρ))
      (category hookName : String) (a : α) (w : ω)
      (d : PlainHandler ω α (HookDispatchError ε) ρ),
      (mkHookManager seq chain).dispatchSequential category hookName a w
          = (.error .invariantViolation, w) ∧
      (mkHookManager seq chain).dispatchChain category hookName a d w
          = (.error .invariantViolation, w)) ∧
    (∀ (m : HookManagerState Ctx ω α ε β ρ) (c : Ctx)
      (category hookName : String) (a : α) (w : ω)
      (d : PlainHandler ω α (HookDispatchError ε) ρ),
      (m.setContext c).dispatchSequential category hookName a w
          = runSequentialHandlers ((m.seqHandlers category hookName).map (fun h => h c)) a w ∧
      (m.setContext c).dispatchChain category hookName a d w
          = runHandlerChain ((m.chainHandlers category hookName).map (fun h => h c)) a d w) := by
  exact ⟨fun _ _ _ _ _ _ _ => ⟨rfl, rfl⟩, fun _ _ _ _ _ _ _ => ⟨rfl, rfl⟩⟩

/-! ## Instrumented handlers for the fan-out dispatch claim

To express "each handler is invoked exactly once, with the same arguments,
in order", handlers are instrumented to append an `(index, arguments)`
record to the world on every invocation. -/

/-- A sequential handler that computes `f` on the arguments and records its
invocation (its index and the arguments it was called with) in the
world. -/
def loggedHandler (i : Nat) (f : α → Except ε β) :
    PlainHandler (List (Nat × α)) α ε β :=
  fun a w => (f a, w ++ [(i, a)])

theorem runSequential_logged_ok (is : List Nat) (f : Nat → α → Except ε β)
    (g : Nat → β) (a : α) (w : List (Nat × α))
    (hok : ∀ i ∈ is, f i a = .ok (g i)) :
    runSequentialHandlers (is.map (fun i => loggedHandler i (f i))) a w
      = (.ok (is.map g), w ++ is.map (fun i => (i, a))) := by
  induction is generalizing w with
  | nil => simp [runSequentialHandlers]
  | cons i is ih =>
    have hi : f i a = .ok (g i) := hok i (by simp)
    have hrest : ∀ j ∈ is, f j a = .ok (g j) := fun j hj => hok j (by simp [hj])
    simp only [List.map_cons, runSequentialHandlers, loggedHandler, hi,
      ih (w ++ [(i, a)]) hrest]
    simp

theorem runSequential_logged_error (front : List Nat) (k : Nat)
    (rest : List Nat) (f : Nat → α → Except ε β) (g : Nat → β) (a : α)
    (w : List (Nat × α)) (e : ε)
    (hok : ∀ i ∈ front, f i a = .ok (g i)) (herr : f k a = .error e) :
    runSequentialHandlers
        ((front ++ k :: rest).map (fun i => loggedHandler i (f i))) a w
      = (.error e, w ++ (front ++ [k]).map (fun i => (i, a))) := by
  induction front generalizing w with
  | nil => simp [runSequentialHandlers, loggedHandler, herr]
  | cons i front ih =>
    have hi : f i a = .ok (g i) := hok i (by simp)
    have hrest : ∀ j ∈ front, f j a = .ok (g j) := fun j hj => hok j (by simp [hj])
    have ihx := ih (w ++ [(i, a)]) hrest
    simp only [List.cons_append, List.map_cons, runSequentialHandlers,
      loggedHandler, hi]
    simp only [List.append_eq]
    rw [ihx]
    simp

theorem range_split_at (n k : Nat) (hk : k < n) :
    ∃ t, List.range n = List.range k ++ k :: t := by
  induction n with
  | zero => omega
  | succ n ih =>
    rcases Nat.lt_succ_iff_lt_or_eq.mp hk with h | h
    · obtain ⟨t, ht⟩ := ih h
      exact ⟨t ++ [n], by rw [List.range_succ, ht]; simp⟩
    · subst h
      exact ⟨[], by rw [List.range_succ]⟩

/-- C2: fan-out dispatch over `n` registered handlers. If every handler
succeeds, each of the `n` handlers is invoked exactly once, with the same
arguments, in registration (plugin-resolution) order, and the results are
returned in invocation order. If handler `k` throws, the invocation log
stops at `k` (handlers `k+1 .. n-1` are never invoked), the error
propagates, and no partial results are returned. -/
theorem runSequentialHandlers_fanout (n : Nat) (f : Nat → α → Except ε β)
    (g : Nat → β) (a : α) :
    ((∀ i, i < n → f i a = .ok (g i)) →
      runSequentialHandlers
          ((List.range n).map (fun i => loggedHandler i (f i))) a []
        = (.ok ((List.range n).map g), (List.range n).map (fun i => (i, a)))) ∧
    (∀ k e, k < n → (∀ i, i < k → f i a = .ok (g i)) → f k a = .error e →
      runSequentialHandlers
          ((List.range n).map (fun i => loggedHandler i (f i))) a []
        = (.error e, (List.range (k + 1)).map (fun i => (i, a)))) := by
  constructor
  · intro hok
    have := runSequential_logged_ok (List.range n) f g a []
      (fun i hi => hok i (List.mem_range.mp hi))
    simpa using this
  · intro k e hk hok herr
    obtain ⟨t, ht⟩ := range_split_at n k hk
    rw [ht]
    have := runSequential_logged_error (List.range k) k t f g a [] e
      (fun i hi => hok i (List.mem_range.mp hi)) herr
    rw [this, List.range_succ]
    simp

/-- Witness for C2 at a concrete input: three handlers that all succeed
(invoked once each in order, results in order), and three handlers whose
middle one throws (the third is never invoked, the error propagates with no
partial results). -/
theorem runSequentialHandlers_fanout_witness :
    (runSequentialHandlers
        ((List.range 3).map
          (fun i => loggedHandler i (fun a => (.ok (a + i) : Except String Nat)))) 10 []
      = (.ok [10, 11, 12], [(0, 10), (1, 10), (2, 10)])) ∧
    (runSequentialHandlers
        ((List.range 3).map
          (fun i => loggedHandler i
            (fun a => if i = 1 then (.error "boom" : Except String Nat) else .ok (a + i)))) 10 []
      = (.error "boom", [(0, 10), (1, 10)])) := by
  constructor
  · have h := (runSequentialHandlers_fanout 3
      (fun i a => (.ok (a + i) : Except String Nat)) (fun i => 10 + i) 10).1
      (fun i _ => rfl)
    simpa using h
  · have h := (runSequentialHandlers_fanout 3
      (fun i a => if i = 1 then (.error "boom" : Except String Nat) else .ok (a + i))
      (fun i => 10 + i) 10).2 1 "boom" (by omega)
      (fun i hi => by interval_cases i; rfl) rfl
    simpa using h

/-! ## Plugin descriptors and plugin-list resolution

Modelled from the spec: `resolvePluginList` of
`plugins/resolve-plugin-list.ts` (not in the snapshot), section 4.1 of the
specification: depth-first expansion pushing each plugin's dependencies
before the plugin itself, an in-progress set for cycle detection and a
finished list for deduplication.

In JavaScript the dependency graph is a graph of object references, which
can be cyclic; it is modelled here as a finite heap of descriptors indexed
by plugin id (`depsOf` follows an edge, an id absent from the heap has no
dependencies). The recursion is fueled; `plugins.length + 2` units of fuel
are proved sufficient below, so the `outOfFuel` marker is unreachable. -/

/-- The type of a global option's value, `ParameterType` of the source
(`src/unnamed/part_004` uses STRING, BOOLEAN and BIGINT). -/
inductive ParameterType where
  | STRING
  | BOOLEAN
  | INT
  | BIGINT
deriving DecidableEq, Repr

/-- A typed global-option value. JavaScript's untyped values are modelled
as a sum so that a default value can fail to match its declared type. -/
inductive ParameterValue where
  | str (s : String)
  | bool (b : Bool)
  | int (i : Int)
  | bigint (i : Int)
deriving DecidableEq, Repr

/-- A global-option definition as supplied by a plugin, before validation:
the `type` field is optional and defaults to STRING
(`buildGlobalOptionDefinition` tests in `src/unnamed/part_004`). -/
structure GlobalOptionInput where
  name : String
  description : String
  type : Option ParameterType
  defaultValue : ParameterValue
deriving DecidableEq, Repr

/-- A plugin descriptor: id, dependency edges (ids into the descriptor
heap) and contributed global options. Hook handlers and task definitions
are modelled separately by the dispatch and task sections. -/
structure HardhatPlugin where
  id : String
  dependencies : List String
  globalOptions : List GlobalOptionInput
deriving DecidableEq, Repr

/-- Follow the dependency edges of the plugin with the given id; an id that
is not in the heap has no outgoing edges (in JavaScript, dependencies are
object references, so every referenced descriptor exists). -/
def depsOf (plugins : List HardhatPlugin) (id : String) : List String :=
  match plugins.find? (fun p => p.id == id) with
  | some p => p.dependencies
  | none => []

/-- Errors of plugin-list resolution. `outOfFuel` is an artifact of the
fueled recursion and is proved unreachable
(`resolvePluginList_ne_outOfFuel`). -/
inductive ResolveError where
  | cyclicDependency (id : String)
  | outOfFuel
deriving DecidableEq, Repr

/-- Modelled from the spec: the depth-first visit of one plugin id in
`resolve-plugin-list.ts` (not in the snapshot): already-finished ids are
deduplicated, an id found in the in-progress set is a dependency cycle,
and otherwise the plugin's dependencies are visited left to right before
the plugin itself is appended (DFS post-order). The recursion is
structural on the fuel so that concrete runs evaluate definitionally. -/
def visit (plugins : List HardhatPlugin) :
    Nat → List String → List String → String → Except ResolveError (List String)
  | 0, _, _, _ => .error .outOfFuel
  | fuel + 1, inProgress, finished, id =>
    if id ∈ finished then .ok finished
    else if id ∈ inProgress then .error (.cyclicDependency id)
    else
      match (depsOf plugins id).foldlM
          (fun acc d => visit plugins fuel (id :: inProgress) acc d) finished with
      | .error e => .error e
      | .ok finished' => .ok (finished' ++ [id])

/-- Visit a list of plugin ids left to right, threading the finished
list. -/
def visitDependencies (plugins : List HardhatPlugin) (fuel : Nat)
    (inProgress finished : List String) (ids : List String) :
    Except ResolveError (List String) :=
  ids.foldlM (fun acc id => visit plugins fuel inProgress acc id) finished

theorem visit_zero (plugins : List HardhatPlugin) (inProgress finished : List String)
    (id : String) : visit plugins 0 inProgress finished id = .error .outOfFuel :=
  rfl

theorem visit_succ (plugins : List HardhatPlugin) (fuel : Nat)
    (inProgress finished : List String) (id : String) :
    visit plugins (fuel + 1) inProgress finished id
      = if id ∈ finished then .ok finished
        else if id ∈ inProgress then .error (.cyclicDependency id)
        else
          match visitDependencies plugins fuel (id :: inProgress) finished
              (depsOf plugins id) with
          | .error e => .error e
          | .ok finished' => .ok (finished' ++ [id]) :=
  rfl

theorem visitDependencies_nil (plugins : List HardhatPlugin) (fuel : Nat)
    (inProgress finished : List String) :
    visitDependencies plugins fuel inProgress finished [] = .ok finished :=
  rfl

theorem visitDependencies_cons (plugins : List HardhatPlugin) (fuel : Nat)
    (inProgress finished : List String) (id : String) (ids : List String) :
    visitDependencies plugins fuel inProgress finished (id :: ids)
      = match visit plugins fuel inProgress finished id with
        | .error e => .error e
        | .ok finished' => visitDependencies plugins fuel inProgress finished' ids := by
  rw [visitDependencies, List.foldlM_cons]
  cases visit plugins fuel inProgress finished id with
  | error e => rfl
  | ok finished' => rfl

/-- Modelled from the spec: `resolvePluginList(candidates)` of
`resolve-plugin-list.ts` (not in the snapshot): depth-first expansion
starting from the supplied candidate list. -/
def resolvePluginList (plugins : List HardhatPlugin) (candidates : List String) :
    Except ResolveError (List String) :=
  visitDependencies plugins (plugins.length + 2) [] [] candidates

/-- The ordering invariant of a resolved plugin list: every dependency of
the plugin at position `i` already occurs among the first `i` entries. -/
def DepsBefore (plugins : List HardhatPlugin) (out : List String) : Prop :=
  ∀ i (hi : i < out.length), ∀ d ∈ depsOf plugins out[i], d ∈ out.take i

theorem depsBefore_append_single {plugins : List HardhatPlugin}
    {xs : List String} {y : String} (hxs : DepsBefore plugins xs)
    (hy : ∀ d ∈ depsOf plugins y, d ∈ xs) :
    DepsBefore plugins (xs ++ [y]) := by
  intro i hi d hd
  have hlen : (xs ++ [y]).length = xs.length + 1 := by simp
  rcases Nat.lt_succ_iff_lt_or_eq.mp (hlen ▸ hi) with h | h
  · rw [List.getElem_append_left h] at hd
    rw [List.take_append_of_le_length (Nat.le_of_lt h)]
    exact hxs i h d hd
  · subst h
    have hgy : (xs ++ [y])[xs.length] = y := by
      rw [List.getElem_append_right (Nat.le_refl _)]
      simp
    rw [hgy] at hd
    rw [List.take_left]
    exact hy d hd

/-- Soundness facts about a successful `visit` at a given fuel level. -/
def VisitSound (plugins : List HardhatPlugin) (fuel : Nat) : Prop :=
  ∀ inProgress finished id finished',
    visit plugins fuel inProgress finished id = .ok finished' →
    (∃ t, finished' = finished ++ t ∧ ∀ x ∈ t, x ∉ inProgress) ∧
    id ∈ finished' ∧
    (finished.Nodup → finished'.Nodup) ∧
    (DepsBefore plugins finished → DepsBefore plugins finished')

/-- Soundness facts about a successful `visitDependencies` at a given fuel
level. -/
def VisitDependenciesSound (plugins : List HardhatPlugin) (fuel : Nat) : Prop :=
  ∀ inProgress finished ids finished',
    visitDependencies plugins fuel inProgress finished ids = .ok finished' →
    (∃ t, finished' = finished ++ t ∧ ∀ x ∈ t, x ∉ inProgress) ∧
    (∀ id ∈ ids, id ∈ finished') ∧
    (finished.Nodup → finished'.Nodup) ∧
    (DepsBefore plugins finished → DepsBefore plugins finished')

theorem visitDependencies_sound_of_visit_sound
    {plugins : List HardhatPlugin} {fuel : Nat}
    (hv : VisitSound plugins fuel) : VisitDependenciesSound plugins fuel := by
  intro inProgress finished ids
  induction ids generalizing finished with
  | nil =>
    intro finished' h
    rw [visitDependencies_nil] at h
    cases h
    exact ⟨⟨[], by simp⟩, by simp, fun h => h, fun h => h⟩
  | cons id ids ih =>
    intro finished' h
    rw [visitDependencies_cons] at h
    cases h1 : visit plugins fuel inProgress finished id with
    | error e => rw [h1] at h; cases h
    | ok finished₁ =>
      rw [h1] at h
      obtain ⟨⟨t₁, ht₁, ht₁m⟩, hid₁, hnd₁, hsd₁⟩ :=
        hv inProgress finished id finished₁ h1
      obtain ⟨⟨t₂, ht₂, ht₂m⟩, hids₂, hnd₂, hsd₂⟩ := ih finished₁ finished' h
      have hpre : finished' = finished ++ (t₁ ++ t₂) := by
        rw [ht₂, ht₁, List.append_assoc]
      refine ⟨⟨t₁ ++ t₂, hpre, ?_⟩, ?_, fun h => hnd₂ (hnd₁ h),
        fun h => hsd₂ (hsd₁ h)⟩
      · intro x hx
        rcases List.mem_append.mp hx with hx | hx
        · exact ht₁m x hx
        · exact ht₂m x hx
      · intro j hj
        rcases List.mem_cons.mp hj with rfl | hj
        · rw [ht₂]; exact List.mem_append_left _ hid₁
        · exact hids₂ j hj

theorem visit_sound (plugins : List HardhatPlugin) :
    ∀ fuel, VisitSound plugins fuel := by
  intro fuel
  induction fuel with
  | zero =>
    intro inProgress finished id finished' h
    rw [visit_zero] at h
    cases h
  | succ fuel ih =>
    have hlist := visitDependencies_sound_of_visit_sound ih
    intro inProgress finished id finished' h
    rw [visit_succ] at h
    by_cases h1 : id ∈ finished
    · rw [if_pos h1] at h
      cases h
      exact ⟨⟨[], by simp⟩, h1, fun h => h, fun h => h⟩
    · rw [if_neg h1] at h
      by_cases h2 : id ∈ inProgress
      · rw [if_pos h2] at h; cases h
      · rw [if_neg h2] at h
        cases hvd : visitDependencies plugins fuel (id :: inProgress) finished
            (depsOf plugins id) with
        | error e => rw [hvd] at h; cases h
        | ok finished₁ =>
          rw [hvd] at h
          cases h
          obtain ⟨⟨t₁, ht₁, ht₁m⟩, hdeps, hnd₁, hsd₁⟩ :=
            hlist (id :: inProgress) finished (depsOf plugins id) finished₁ hvd
          have hidnot : id ∉ finished₁ := by
            rw [ht₁]
            intro hmem
            rcases List.mem_append.mp hmem with hmem | hmem
            · exact h1 hmem
            · exact ht₁m id hmem (by simp)
          refine ⟨⟨t₁ ++ [id], by rw [ht₁, List.append_assoc], ?_⟩, by simp, ?_, ?_⟩
          · intro x hx
            rcases List.mem_append.mp hx with hx | hx
            · exact fun hc => ht₁m x hx (List.mem_cons_of_mem _ hc)
            · rw [List.mem_singleton.mp hx]
              exact h2
          · intro hnd
            exact List.nodup_append.mpr ⟨hnd₁ hnd, List.nodup_singleton id,
              fun x hx hx' => hidnot (List.mem_singleton.mp hx' ▸ hx)⟩
          · intro hsd
            exact depsBefore_append_single (hsd₁ hsd) hdeps

theorem resolvePluginList_sound {plugins : List HardhatPlugin}
    {candidates : List String} {out : List String}
    (h : resolvePluginList plugins candidates = .ok out) :
    out.Nodup ∧ DepsBefore plugins out ∧ ∀ c ∈ candidates, c ∈ out := by
  obtain ⟨_, hcand, hnd, hsd⟩ :=
    visitDependencies_sound_of_visit_sound (visit_sound plugins _)
      [] [] candidates out h
  refine ⟨hnd List.nodup_nil, hsd ?_, hcand⟩
  intro i hi
  simp at hi

/-! ### Fuel sufficiency: the `outOfFuel` marker is unreachable -/

/-- The ids that occur in the descriptor heap, without duplicates. -/
def keysIds (plugins : List HardhatPlugin) : List String :=
  (plugins.map (fun p => p.id)).dedup

/-- Number of heap ids not yet in the in-progress set; the termination
measure of the depth-first expansion. -/
def freeCount (plugins : List HardhatPlugin) (inProgress : List String) : Nat :=
  ((keysIds plugins).filter (fun x => decide (x ∉ inProgress))).length

theorem length_filter_mono (l : List String) (p q : String → Bool)
    (hpq : ∀ x, p x = true → q x = true) :
    (l.filter p).length ≤ (l.filter q).length := by
  induction l with
  | nil => simp
  | cons x t ih =>
    by_cases hp : p x = true
    · rw [List.filter_cons_of_pos hp, List.filter_cons_of_pos (hpq x hp)]
      simpa using ih
    · rw [List.filter_cons_of_neg hp]
      by_cases hq : q x = true
      · rw [List.filter_cons_of_pos hq]
        simp only [List.length_cons]
        omega
      · rw [List.filter_cons_of_neg hq]
        exact ih

theorem length_filter_not_mem_cons_lt (l : List String) (a : String)
    (inProgress : List String) (hal : a ∈ l) (hani : a ∉ inProgress) :
    (l.filter (fun x => decide (x ∉ a :: inProgress))).length
      < (l.filter (fun x => decide (x ∉ inProgress))).length := by
  induction l with
  | nil => cases hal
  | cons x t ih =>
    have hmono := length_filter_mono t (fun x => decide (x ∉ a :: inProgress))
      (fun x => decide (x ∉ inProgress))
      (fun x hx => by
        simp only [decide_eq_true_eq] at hx ⊢
        exact fun hc => hx (List.mem_cons_of_mem _ hc))
    by_cases hxa : x = a
    · subst hxa
      rw [List.filter_cons_of_neg (by simp), List.filter_cons_of_pos (by simpa)]
      simp only [List.length_cons]
      omega
    · have hat : a ∈ t := by
        rcases List.mem_cons.mp hal with h | h
        · exact absurd h.symm hxa
        · exact h
      by_cases hxi : x ∈ inProgress
      · rw [List.filter_cons_of_neg (by simp [hxi]),
          List.filter_cons_of_neg (by simp [hxi])]
        exact ih hat
      · rw [List.filter_cons_of_pos (by simp [hxa, hxi]),
          List.filter_cons_of_pos (by simpa)]
        simpa using ih hat

theorem freeCount_cons_lt {plugins : List HardhatPlugin} {id : String}
    {inProgress : List String} (hk : id ∈ keysIds plugins)
    (hni : id ∉ inProgress) :
    freeCount plugins (id :: inProgress) < freeCount plugins inProgress :=
  length_filter_not_mem_cons_lt (keysIds plugins) id inProgress hk hni

theorem depsOf_eq_nil_of_not_key {plugins : List HardhatPlugin} {id : String}
    (h : id ∉ keysIds plugins) : depsOf plugins id = [] := by
  have hfind : plugins.find? (fun p => p.id == id) = none := by
    refine List.find?_eq_none.mpr (fun p hp hbeq => ?_)
    have : p.id = id := by simpa using hbeq
    exact h (List.mem_dedup.mpr (this ▸ List.mem_map_of_mem (fun p => p.id) hp))
  rw [depsOf, hfind]

/-- Fuel-adequacy facts for `visit` at a given fuel level. -/
def VisitFueled (plugins : List HardhatPlugin) (fuel : Nat) : Prop :=
  ∀ inProgress finished id, freeCount plugins inProgress < fuel →
    visit plugins fuel inProgress finished id ≠ .error .outOfFuel

/-- Fuel-adequacy facts for `visitDependencies` at a given fuel level. -/
def VisitDependenciesFueled (plugins : List HardhatPlugin) (fuel : Nat) : Prop :=
  ∀ inProgress finished ids, freeCount plugins inProgress < fuel →
    visitDependencies plugins fuel inProgress finished ids ≠ .error .outOfFuel

theorem visitDependencies_fueled_of_visit_fueled
    {plugins : List HardhatPlugin} {fuel : Nat}
    (hv : VisitFueled plugins fuel) : VisitDependenciesFueled plugins fuel := by
  intro inProgress finished ids
  induction ids generalizing finished with
  | nil =>
    intro _ h
    rw [visitDependencies_nil] at h
    cases h
  | cons id ids ih =>
    intro hcount h
    rw [visitDependencies_cons] at h
    cases h1 : visit plugins fuel inProgress finished id with
    | error e =>
      rw [h1] at h
      have : e = .outOfFuel := by
        cases h
        rfl
      exact hv inProgress finished id hcount (this ▸ h1)
    | ok finished₁ =>
      rw [h1] at h
      exact ih finished₁ hcount h

theorem visit_fueled (plugins : List HardhatPlugin) :
    ∀ fuel, VisitFueled plugins fuel := by
  intro fuel
  induction fuel with
  | zero =>
    intro inProgress finished id hcount
    omega
  | succ fuel ih =>
    have hlist := visitDependencies_fueled_of_visit_fueled ih
    intro inProgress finished id hcount h
    rw [visit_succ] at h
    by_cases h1 : id ∈ finished
    · rw [if_pos h1] at h; cases h
    · rw [if_neg h1] at h
      by_cases h2 : id ∈ inProgress
      · rw [if_pos h2] at h; cases h
      · rw [if_neg h2] at h
        by_cases hk : id ∈ keysIds plugins
        · have hlt : freeCount plugins (id :: inProgress) < fuel := by
            have := freeCount_cons_lt hk h2
            omega
          cases hvd : visitDependencies plugins fuel (id :: inProgress) finished
              (depsOf plugins id) with
          | error e =>
            rw [hvd] at h
            have : e = .outOfFuel := by cases h; rfl
            exact hlist (id :: inProgress) finished (depsOf plugins id) hlt
              (this ▸ hvd)
          | ok finished₁ => rw [hvd] at h; cases h
        · rw [depsOf_eq_nil_of_not_key hk] at h
          rw [visitDependencies_nil] at h
          cases h

theorem resolvePluginList_ne_outOfFuel (plugins : List HardhatPlugin)
    (candidates : List String) :
    resolvePluginList plugins candidates ≠ .error .outOfFuel := by
  apply visitDependencies_fueled_of_visit_fueled (visit_fueled plugins _)
  have hfull : ((keysIds plugins).filter
      (fun x => decide (x ∉ ([] : List String)))).length
      = (keysIds plugins).length := by
    rw [List.filter_eq_self.mpr]
    intro x _
    simp
  have hle : (keysIds plugins).length ≤ plugins.length := by
    calc (keysIds plugins).length
        ≤ (plugins.map (fun p => p.id)).length :=
          (List.dedup_sublist _).length_le
      _ = plugins.length := List.length_map _ _
  rw [freeCount, hfull]
  omega

/-! ### From the ordering invariant to cycle detection -/

theorem mem_take_getElem {l : List String} {i : Nat} {d : String}
    (h : d ∈ l.take i) :
    ∃ j, ∃ hj : j < l.length, j < i ∧ l[j] = d := by
  obtain ⟨j, hj, hget⟩ := List.mem_iff_getElem.mp h
  have hjm : j < min i l.length := by simpa using hj
  have hjl : j < l.length := lt_of_lt_of_le hjm (Nat.min_le_right _ _)
  have hji : j < i := lt_of_lt_of_le hjm (Nat.min_le_left _ _)
  refine ⟨j, hjl, hji, ?_⟩
  rw [← hget]
  exact (List.getElem_take l).symm

theorem indexOf_le_of_getElem {l : List String} {j : Nat} {d : String}
    (hj : j < l.length) (h : l[j] = d) : l.indexOf d ≤ j := by
  induction l generalizing j with
  | nil => simp at hj
  | cons x t ih =>
    by_cases hxd : x = d
    · subst hxd
      rw [List.indexOf_cons_self]
      omega
    · cases j with
      | zero =>
        simp only [List.getElem_cons_zero] at h
        exact absurd h hxd
      | succ j =>
        have hbeq : (x == d) = false := by simpa using hxd
        rw [List.indexOf_cons, hbeq]
        simp only [cond_false]
        have hjt : j < t.length := by simpa using hj
        have hget : t[j] = d := by simpa using h
        have := ih hjt hget
        omega

/-- The dependency edge relation of the descriptor heap: `DepEdge plugins
p d` holds when `d` is a declared dependency of `p`. -/
abbrev DepEdge (plugins : List HardhatPlugin) (p d : String) : Prop :=
  d ∈ depsOf plugins p

theorem depEdge_indexOf_lt {plugins : List HardhatPlugin} {out : List String}
    (hsd : DepsBefore plugins out) {p d : String} (hp : p ∈ out)
    (hd : DepEdge plugins p d) :
    d ∈ out ∧ out.indexOf d < out.indexOf p := by
  have hip : out.indexOf p < out.length := List.indexOf_lt_length.mpr hp
  have hgp : out[out.indexOf p] = p := List.getElem_indexOf hip
  have hdt : d ∈ out.take (out.indexOf p) := hsd _ hip d (by rw [hgp]; exact hd)
  obtain ⟨j, hjl, hji, hgj⟩ := mem_take_getElem hdt
  exact ⟨hgj ▸ List.getElem_mem hjl,
    lt_of_le_of_lt (indexOf_le_of_getElem hjl hgj) hji⟩

theorem transGen_indexOf_lt {plugins : List HardhatPlugin}
    {out : List String} (hsd : DepsBefore plugins out) {x y : String}
    (h : Relation.TransGen (DepEdge plugins) x y) (hx : x ∈ out) :
    y ∈ out ∧ out.indexOf y < out.indexOf x := by
  induction h with
  | single h1 => exact depEdge_indexOf_lt hsd hx h1
  | tail _ h2 ih =>
    obtain ⟨hb, hlt⟩ := ih
    obtain ⟨hc, hlt2⟩ := depEdge_indexOf_lt hsd hb h2
    exact ⟨hc, lt_trans hlt2 hlt⟩

theorem reflTransGen_mem {plugins : List HardhatPlugin} {out : List String}
    (hsd : DepsBefore plugins out) {x y : String}
    (h : Relation.ReflTransGen (DepEdge plugins) x y) (hx : x ∈ out) :
    y ∈ out := by
  induction h with
  | refl => exact hx
  | tail _ h2 ih => exact (depEdge_indexOf_lt hsd ih h2).1

/-- The diamond dependency example: `top` depends on `left` and `right`,
both of which depend on `shared`. -/
def diamondPlugins : List HardhatPlugin :=
  [⟨"top", ["left", "right"], []⟩, ⟨"left", ["shared"], []⟩,
    ⟨"right", ["shared"], []⟩, ⟨"shared", [], []⟩]

/-- C4: plugin-list resolution is deterministic (it is a pure function of
its input), and on success its output satisfies the `ResolvedPluginList`
invariant: no id appears twice, and every dependency of the plugin at
position `i` appears at an earlier position; the diamond example resolves
with the shared dependency appearing exactly once. -/
theorem resolvePluginList_deterministic_invariant :
    (∀ (plugins : List HardhatPlugin) (candidates : List String),
      resolvePluginList plugins candidates = resolvePluginList plugins candidates) ∧
    (∀ (plugins : List HardhatPlugin) (candidates : List String)
      (out : List String),
      resolvePluginList plugins candidates = .ok out →
      out.Nodup ∧
      ∀ i (hi : i < out.length), ∀ d ∈ depsOf plugins out[i],
        ∃ j, ∃ _ : j < out.length, j < i ∧ out[j] = d) ∧
    (resolvePluginList diamondPlugins ["top"]
        = .ok ["shared", "left", "right", "top"] ∧
      (["shared", "left", "right", "top"] : List String).count "shared" = 1) := by
  refine ⟨fun _ _ => rfl, ?_, by rfl, by decide⟩
  intro plugins candidates out h
  obtain ⟨hnd, hsd, _⟩ := resolvePluginList_sound h
  refine ⟨hnd, ?_⟩
  intro i hi d hd
  exact mem_take_getElem (hsd i hi d hd)

/-- Witness for C4 at a concrete input: the invariant conjunct applied to
the diamond example yields that the resolved list has no duplicate ids. -/
theorem resolvePluginList_deterministic_invariant_witness :
    (["shared", "left", "right", "top"] : List String).Nodup :=
  (resolvePluginList_deterministic_invariant.2.1 diamondPlugins ["top"]
    ["shared", "left", "right", "top"] rfl).1

/-- C5: whenever the dependency graph reachable from the candidate list
contains a cycle (a plugin that transitively depends on itself),
`resolvePluginList` fails with a `CyclicDependency` error rather than
returning a resolved list. -/
theorem resolvePluginList_cyclicDependency (plugins : List HardhatPlugin)
    (candidates : List String) (a : String)
    (hreach : ∃ c ∈ candidates, Relation.ReflTransGen (DepEdge plugins) c a)
    (hcycle : Relation.TransGen (DepEdge plugins) a a) :
    ∃ x, resolvePluginList plugins candidates = .error (.cyclicDependency x) := by
  cases hres : resolvePluginList plugins candidates with
  | ok out =>
    exfalso
    obtain ⟨_, hsd, hcand⟩ := resolvePluginList_sound hres
    obtain ⟨c, hc, hpath⟩ := hreach
    have ha : a ∈ out := reflTransGen_mem hsd hpath (hcand c hc)
    have := (transGen_indexOf_lt hsd hcycle ha).2
    omega
  | error e =>
    cases e with
    | cyclicDependency x => exact ⟨x, rfl⟩
    | outOfFuel => exact absurd hres (resolvePluginList_ne_outOfFuel plugins candidates)

/-- A self-referential plugin. -/
def selfLoopPlugins : List HardhatPlugin := [⟨"a", ["a"], []⟩]

/-- Witness for C5 at a concrete input: resolving the self-referential
plugin fails with a cyclic-dependency error. -/
theorem resolvePluginList_cyclicDependency_witness :
    ∃ x, resolvePluginList selfLoopPlugins ["a"]
      = .error (.cyclicDependency x) :=
  resolvePluginList_cyclicDependency selfLoopPlugins ["a"] "a"
    ⟨"a", by decide, Relation.ReflTransGen.refl⟩
    (Relation.TransGen.single (by decide : DepEdge selfLoopPlugins "a" "a"))

/-! ## Global options

Modelled from the spec: `global-options.ts` (not in the snapshot), section
4.2 of the specification, together with its unit tests in
`src/unnamed/part_004` (which pin down the shapes of the errors, the
`HARDHAT_`-prefixed environment-variable convention, and the `STRING`
default for a missing type). The process-wide reserved-name set is passed
explicitly as the `reserved` argument, following the design note that makes
it an injected registry. -/

/-- Does a candidate option name match the identifier grammar? The name
must be nonempty, start with a lowercase letter and continue with
alphanumeric characters (so `"foo bar"` with its space is invalid, as in
the tests). -/
def isValidParamNameCasing (s : String) : Bool :=
  match s.data with
  | [] => false
  | c :: cs => c.isLower && cs.all Char.isAlphanum

/-- Render a value for inclusion in an error message. -/
def renderValue : ParameterValue → String
  | .str s => s
  | .bool b => cond b "true" "false"
  | .int i => toString i
  | .bigint i => toString i ++ "n"

/-- Does a runtime value belong to a declared parameter type? -/
def ParameterValue.matchesType : ParameterValue → ParameterType → Bool
  | .str _, .STRING => true
  | .bool _, .BOOLEAN => true
  | .int _, .INT => true
  | .bigint _, .BIGINT => true
  | _, _ => false

/-- Errors of the global-option registry, shaped after the `HardhatError`
payloads asserted by the tests in `src/unnamed/part_004`. -/
inductive OptionsError where
  | invalidName (name : String)
  | reservedName (name : String)
  | invalidValueForType (value : String) (name : String) (type : ParameterType)
  | alreadyDefined (plugin : String) (globalOption : String) (definedByPlugin : String)
deriving DecidableEq, Repr

/-- A validated global-option definition (the `type` has been defaulted,
the name and default value have been checked). -/
structure GlobalOptionDefinition where
  name : String
  description : String
  type : ParameterType
  defaultValue : ParameterValue
deriving DecidableEq, Repr

/-- The declared type of an input definition; a missing type defaults to
STRING (test: "should build a global option definition with a default type
of STRING"). -/
def effectiveType (input : GlobalOptionInput) : ParameterType :=
  input.type.getD .STRING

/-- Modelled from the spec: `buildGlobalOptionDefinition` of
`global-options.ts` (not in the snapshot): validates the name against the
identifier grammar, then against the reserved set, then checks that the
default value matches the declared type (error shapes per the tests in
`src/unnamed/part_004`). -/
def buildGlobalOptionDefinition (reserved : List String)
    (input : GlobalOptionInput) : Except OptionsError GlobalOptionDefinition :=
  if isValidParamNameCasing input.name = false then
    .error (.invalidName input.name)
  else if input.name ∈ reserved then
    .error (.reservedName input.name)
  else if input.defaultValue.matchesType (effectiveType input) = false then
    .error (.invalidValueForType (renderValue input.defaultValue)
      "defaultValue" (effectiveType input))
  else
    .ok ⟨input.name, input.description, effectiveType input, input.defaultValue⟩

/-- One entry of the global-options map: the option definition together
with the id of the plugin that contributed it. -/
structure GlobalOptionMapEntry where
  pluginId : String
  option : GlobalOptionDefinition
deriving DecidableEq, Repr

/-- The global-options map, in insertion order (a JavaScript `Map`
preserves insertion order), keyed by option name. -/
abbrev GlobalOptionsMap : Type := List (String × GlobalOptionMapEntry)

/-- Add one option contributed by `pluginId`: an already-present name is an
`AlreadyDefined` conflict naming the current plugin and the plugin that
defined the name first; otherwise the definition is validated and
appended. -/
def addOption (reserved : List String) (m : GlobalOptionsMap)
    (pluginId : String) (input : GlobalOptionInput) :
    Except OptionsError GlobalOptionsMap :=
  match m.find? (fun e => e.1 == input.name) with
  | some e => .error (.alreadyDefined pluginId input.name e.2.pluginId)
  | none =>
    match buildGlobalOptionDefinition reserved input with
    | .error e => .error e
    | .ok d => .ok (m ++ [(input.name, ⟨pluginId, d⟩)])

/-- Add all options of one plugin, in declaration order. -/
def addPluginOptions (reserved : List String) (pluginId : String) :
    GlobalOptionsMap → List GlobalOptionInput → Except OptionsError GlobalOptionsMap
  | m, [] => .ok m
  | m, input :: rest =>
    match addOption reserved m pluginId input with
    | .error e => .error e
    | .ok m' => addPluginOptions reserved pluginId m' rest

/-- Process the resolved plugins in resolution order, threading the map. -/
def buildGlobalOptionsMapGo (reserved : List String) :
    GlobalOptionsMap → List HardhatPlugin → Except OptionsError GlobalOptionsMap
  | m, [] => .ok m
  | m, p :: rest =>
    match addPluginOptions reserved p.id m p.globalOptions with
    | .error e => .error e
    | .ok m' => buildGlobalOptionsMapGo reserved m' rest

/-- Modelled from the spec: `buildGlobalOptionsMap` of `global-options.ts`
(not in the snapshot): iterates the resolved plugins in order and collects
their validated global options, failing on the first invalid or conflicting
definition. -/
def buildGlobalOptionsMap (reserved : List String)
    (plugins : List HardhatPlugin) : Except OptionsError GlobalOptionsMap :=
  buildGlobalOptionsMapGo reserved [] plugins

/-- Modelled from the spec: the environment variable consulted for an
option, section 6 of the specification: `HARDHAT_` followed by the
uppercased name with non-alphanumeric characters stripped. -/
def envVarName (name : String) : String :=
  "HARDHAT_" ++ String.mk (name.toUpper.data.filter Char.isAlphanum)

/-- Modelled from the spec: coercion of an environment string to a typed
value: booleans accept only the canonical spellings, INT requires a signed
integer literal, BIGINT additionally accepts a trailing `n` (the test sets
`HARDHAT_PARAM3=5n`); a failed coercion is `InvalidValueForType` naming the
option and the declared type. -/
def parseParameterValue (value : String) (t : ParameterType) (name : String) :
    Except OptionsError ParameterValue :=
  match t with
  | .STRING => .ok (.str value)
  | .BOOLEAN =>
    if value == "true" then .ok (.bool true)
    else if value == "false" then .ok (.bool false)
    else .error (.invalidValueForType value name .BOOLEAN)
  | .INT =>
    match value.toInt? with
    | some i => .ok (.int i)
    | none => .error (.invalidValueForType value name .INT)
  | .BIGINT =>
    match (if value.endsWith "n" then value.dropRight 1 else value).toInt? with
    | some i => .ok (.bigint i)
    | none => .error (.invalidValueForType value name .BIGINT)

/-- First value bound to `name` in an association list of option values. -/
def lookupValue (l : List (String × ParameterValue)) (name : String) :
    Option ParameterValue :=
  (l.find? (fun e => e.1 == name)).map (fun e => e.2)

/-- Modelled from the spec: resolution of one option: an explicit
caller-supplied value wins; otherwise a set environment variable is coerced
to the declared type; otherwise the default value applies. -/
def resolveOneOption (user : List (String × ParameterValue))
    (env : String → Option String) (name : String)
    (odef : GlobalOptionDefinition) : Except OptionsError ParameterValue :=
  match lookupValue user name with
  | some v => .ok v
  | none =>
    match env (envVarName name) with
    | some s => parseParameterValue s odef.type name
    | none => .ok odef.defaultValue

/-- Modelled from the spec: `resolveGlobalOptions(userProvided, catalog)`
of `global-options.ts` (not in the snapshot): resolves every catalog entry
in catalog order (caller-supplied keys that match no catalog entry are
thereby ignored). The process environment is passed explicitly. -/
def resolveGlobalOptions (user : List (String × ParameterValue))
    (gomap : GlobalOptionsMap) (env : String → Option String) :
    Except OptionsError (List (String × ParameterValue)) :=
  match gomap with
  | [] => .ok []
  | (name, entry) :: rest =>
    match resolveOneOption user env name entry.option with
    | .error e => .error e
    | .ok v =>
      match resolveGlobalOptions user rest env with
      | .error e => .error e
      | .ok vs => .ok ((name, v) :: vs)

/-- C3: option-value precedence. For every catalog (with its names
distinct, as built catalogs are), every entry in it and every environment:
when resolution succeeds, the resolved value of that entry's option is the
caller-supplied value when one is set (regardless of the environment), else
the coercion of the environment variable when that is set, else the
declared default. -/
theorem resolveGlobalOptions_precedence
    (user : List (String × ParameterValue)) (gomap : GlobalOptionsMap)
    (env : String → Option String) (res : List (String × ParameterValue))
    (name : String) (entry : GlobalOptionMapEntry)
    (hnd : (gomap.map Prod.fst).Nodup)
    (hmem : (name, entry) ∈ gomap)
    (hres : resolveGlobalOptions user gomap env = .ok res) :
    (∀ u, lookupValue user name = some u → lookupValue res name = some u) ∧
    (lookupValue user name = none →
      ∀ s v, env (envVarName name) = some s →
        parseParameterValue s entry.option.type name = .ok v →
        lookupValue res name = some v) ∧
    (lookupValue user name = none → env (envVarName name) = none →
      lookupValue res name = some entry.option.defaultValue) := by
  induction gomap generalizing res with
  | nil => cases hmem
  | cons head rest ih =>
    obtain ⟨n0, e0⟩ := head
    rw [resolveGlobalOptions] at hres
    cases h1 : resolveOneOption user env n0 e0.option with
    | error e => rw [h1] at hres; cases hres
    | ok v =>
      rw [h1] at hres
      cases h2 : resolveGlobalOptions user rest env with
      | error e => rw [h2] at hres; cases hres
      | ok vs =>
        rw [h2] at hres
        cases hres
        rcases List.mem_cons.mp hmem with heq | hmem'
        · injection heq with hn he
          subst hn
          subst he
          have hlook : lookupValue ((name, v) :: vs) name = some v := by
            simp [lookupValue, List.find?]
          refine ⟨?_, ?_, ?_⟩
          · intro u hu
            simp only [resolveOneOption, hu] at h1
            cases h1
            exact hlook
          · intro hu s v' hs hp
            simp only [resolveOneOption, hu, hs] at h1
            rw [h1] at hp
            cases hp
            exact hlook
          · intro hu he
            simp only [resolveOneOption, hu, he] at h1
            cases h1
            exact hlook
        · rw [List.map_cons] at hnd
          have hnd' := List.nodup_cons.mp hnd
          have hname_mem : name ∈ rest.map Prod.fst := by
            simpa using List.mem_map_of_mem Prod.fst hmem'
          have hn0 : n0 ≠ name := fun hc => hnd'.1 (hc ▸ hname_mem)
          have hskip : ∀ l : List (String × ParameterValue),
              lookupValue ((n0, v) :: l) name = lookupValue l name := by
            intro l
            simp [lookupValue, List.find?, show (n0 == name) = false by
              simpa using hn0]
          obtain ⟨c1, c2, c3⟩ := ih vs hnd'.2 hmem' h2
          refine ⟨?_, ?_, ?_⟩
          · intro u hu
            rw [hskip]
            exact c1 u hu
          · intro hu s v' hs hp
            rw [hskip]
            exact c2 hu s v' hs hp
          · intro hu he
            rw [hskip]
            exact c3 hu he

/-- The one-option catalog of the specification's precedence example: a
boolean `param1` defaulting to `true`, contributed by `plugin1`. -/
def examplePrecedenceMap : GlobalOptionsMap :=
  [("param1", ⟨"plugin1", ⟨"param1", "param1 description", .BOOLEAN, .bool true⟩⟩)]

/-- Witness for C3 at the specification's example: default `true`,
environment unset, user-supplied `false`; the resolved value is `false`. -/
theorem resolveGlobalOptions_precedence_witness :
    lookupValue [("param1", ParameterValue.bool false)] "param1"
      = some (ParameterValue.bool false) :=
  (resolveGlobalOptions_precedence [("param1", .bool false)]
    examplePrecedenceMap (fun _ => none) [("param1", .bool false)] "param1"
    ⟨"plugin1", ⟨"param1", "param1 description", .BOOLEAN, .bool true⟩⟩
    (by decide) (by decide) rfl).1 (.bool false) rfl

/-! ### Conflict detection facts for `buildGlobalOptionsMap` -/

/-- The option names declared by one plugin. -/
def optionNames (p : HardhatPlugin) : List String :=
  p.globalOptions.map (fun o => o.name)

/-- The plugin recorded in the map as owning option name `k`. -/
def lookupPluginId (m : GlobalOptionsMap) (k : String) : Option String :=
  (m.find? (fun e => e.1 == k)).map (fun e => e.2.pluginId)

/-- The first plugin in the list declaring an option named `k`. -/
def firstDefiner (plugins : List HardhatPlugin) (k : String) : Option String :=
  (plugins.find? (fun p => decide (k ∈ optionNames p))).map (fun p => p.id)

/-- An option definition that passes the three validation checks of
`buildGlobalOptionDefinition`. -/
abbrev ValidOption (reserved : List String) (input : GlobalOptionInput) : Prop :=
  isValidParamNameCasing input.name = true ∧ input.name ∉ reserved ∧
    input.defaultValue.matchesType (effectiveType input) = true

theorem buildGlobalOptionDefinition_ok_of_valid {reserved : List String}
    {input : GlobalOptionInput} (hv : ValidOption reserved input) :
    buildGlobalOptionDefinition reserved input
      = .ok ⟨input.name, input.description, effectiveType input,
          input.defaultValue⟩ := by
  obtain ⟨h1, h2, h3⟩ := hv
  rw [buildGlobalOptionDefinition, if_neg (by simp [h1]), if_neg h2,
    if_neg (by simp [h3])]

theorem addOption_ok {reserved : List String} {m : GlobalOptionsMap}
    {pid : String} {input : GlobalOptionInput} {m' : GlobalOptionsMap}
    (h : addOption reserved m pid input = .ok m') :
    lookupPluginId m input.name = none ∧
    ∀ k, lookupPluginId m' k
      = if k = input.name then some pid else lookupPluginId m k := by
  rw [addOption] at h
  cases hf : m.find? (fun e => e.1 == input.name) with
  | some e => rw [hf] at h; cases h
  | none =>
    rw [hf] at h
    cases hb : buildGlobalOptionDefinition reserved input with
    | error e => rw [hb] at h; cases h
    | ok d =>
      rw [hb] at h
      cases h
      refine ⟨by rw [lookupPluginId, hf]; rfl, ?_⟩
      intro k
      rw [lookupPluginId, List.find?_append]
      by_cases hk : k = input.name
      · subst hk
        rw [hf]
        simp [List.find?]
      · rw [if_neg hk]
        have hone : ([(input.name, ⟨pid, d⟩)] : GlobalOptionsMap).find?
            (fun e => e.1 == k) = none := by
          simp [List.find?, show (input.name == k) = false by
            simpa using fun hc => hk hc.symm]
        rw [hone, lookupPluginId]
        cases m.find? (fun e => e.1 == k) with
        | none => rfl
        | some e => rfl

theorem addOption_error {reserved : List String} {m : GlobalOptionsMap}
    {pid : String} {input : GlobalOptionInput} {e : OptionsError}
    (h : addOption reserved m pid input = .error e)
    (hv : ValidOption reserved input) :
    ∃ q, e = .alreadyDefined pid input.name q ∧
      lookupPluginId m input.name = some q := by
  rw [addOption] at h
  cases hf : m.find? (fun e => e.1 == input.name) with
  | some entry =>
    rw [hf] at h
    cases h
    exact ⟨entry.2.pluginId, rfl, by rw [lookupPluginId, hf]; rfl⟩
  | none =>
    rw [hf, buildGlobalOptionDefinition_ok_of_valid hv] at h
    cases h

theorem addPluginOptions_ok {reserved : List String} {pid : String} :
    ∀ {inputs : List GlobalOptionInput} {m m' : GlobalOptionsMap},
    addPluginOptions reserved pid m inputs = .ok m' →
    ∀ k, lookupPluginId m' k
      = match lookupPluginId m k with
        | some q => some q
        | none =>
          if k ∈ inputs.map (fun i => i.name) then some pid else none := by
  intro inputs
  induction inputs with
  | nil =>
    intro m m' h k
    rw [addPluginOptions] at h
    cases h
    cases lookupPluginId m k with
    | none => simp
    | some q => rfl
  | cons input rest ih =>
    intro m m' h k
    rw [addPluginOptions] at h
    cases ha : addOption reserved m pid input with
    | error e => rw [ha] at h; cases h
    | ok m₁ =>
      rw [ha] at h
      obtain ⟨hfresh, hstep⟩ := addOption_ok ha
      rw [ih h k, hstep k]
      by_cases hk : k = input.name
      · subst hk
        rw [if_pos rfl, hfresh]
        simp
      · rw [if_neg hk]
        cases hq : lookupPluginId m k with
        | some q => rfl
        | none => simp [hk]

theorem addPluginOptions_ok_fresh {reserved : List String} {pid : String} :
    ∀ {inputs : List GlobalOptionInput} {m m' : GlobalOptionsMap},
    addPluginOptions reserved pid m inputs = .ok m' →
    (inputs.map (fun i => i.name)).Nodup →
    ∀ i ∈ inputs, lookupPluginId m i.name = none := by
  intro inputs
  induction inputs with
  | nil =>
    intro m m' _ _ i hi
    cases hi
  | cons input rest ih =>
    intro m m' h hnd i hi
    rw [addPluginOptions] at h
    cases ha : addOption reserved m pid input with
    | error e => rw [ha] at h; cases h
    | ok m₁ =>
      rw [ha] at h
      obtain ⟨hfresh, hstep⟩ := addOption_ok ha
      rw [List.map_cons, List.nodup_cons] at hnd
      rcases List.mem_cons.mp hi with rfl | hi'
      · exact hfresh
      · have hres := ih h hnd.2 i hi'
        rw [hstep i.name] at hres
        by_cases hin : i.name = input.name
        · refine absurd ?_ hnd.1
          rw [← hin]
          exact List.mem_map_of_mem (fun i => i.name) hi' 
        · rwa [if_neg hin] at hres

theorem addPluginOptions_error {reserved : List String} {pid : String} :
    ∀ {inputs : List GlobalOptionInput} {m : GlobalOptionsMap}
      {e : OptionsError},
    addPluginOptions reserved pid m inputs = .error e →
    (∀ i ∈ inputs, ValidOption reserved i) →
    (inputs.map (fun i => i.name)).Nodup →
    ∃ input, input ∈ inputs ∧ ∃ q, e = .alreadyDefined pid input.name q ∧
      lookupPluginId m input.name = some q := by
  intro inputs
  induction inputs with
  | nil =>
    intro m e h _ _
    rw [addPluginOptions] at h
    cases h
  | cons input rest ih =>
    intro m e h hv hnd
    rw [addPluginOptions] at h
    cases ha : addOption reserved m pid input with
    | error e0 =>
      rw [ha] at h
      cases h
      obtain ⟨q, he, hlk⟩ := addOption_error ha (hv input (by simp))
      exact ⟨input, by simp, q, he, hlk⟩
    | ok m₁ =>
      rw [ha] at h
      rw [List.map_cons, List.nodup_cons] at hnd
      obtain ⟨hfresh, hstep⟩ := addOption_ok ha
      obtain ⟨input', hmem', q, he, hlk⟩ :=
        ih h (fun i hi => hv i (by simp [hi])) hnd.2
      refine ⟨input', by simp [hmem'], q, he, ?_⟩
      rw [hstep input'.name] at hlk
      by_cases hin : input'.name = input.name
      · refine absurd ?_ hnd.1
        rw [← hin]
        exact List.mem_map_of_mem (fun i => i.name) hmem' 
      · rwa [if_neg hin] at hlk

theorem firstDefiner_append (front rest : List HardhatPlugin) (k : String) :
    firstDefiner (front ++ rest) k
      = match firstDefiner front k with
        | some q => some q
        | none => firstDefiner rest k := by
  rw [firstDefiner, List.find?_append]
  cases hf : front.find? (fun p => decide (k ∈ optionNames p)) with
  | some p => rw [firstDefiner, hf]; rfl
  | none => rw [firstDefiner, hf]; rfl

theorem firstDefiner_single (P : HardhatPlugin) (k : String) :
    firstDefiner [P] k = if k ∈ optionNames P then some P.id else none := by
  by_cases h : k ∈ optionNames P
  · rw [firstDefiner, if_pos h]
    simp [List.find?, h]
  · rw [firstDefiner, if_neg h]
    simp [List.find?, h]

theorem firstDefiner_some {l : List HardhatPlugin} {k q : String}
    (h : firstDefiner l k = some q) :
    ∃ F, F ∈ l ∧ F.id = q ∧ k ∈ optionNames F := by
  rw [firstDefiner] at h
  cases hf : l.find? (fun p => decide (k ∈ optionNames p)) with
  | none => rw [hf] at h; cases h
  | some F =>
    rw [hf] at h
    refine ⟨F, List.mem_of_find?_eq_some hf, by injection h, ?_⟩
    simpa using List.find?_some hf

theorem firstDefiner_isSome_of_mem {l : List HardhatPlugin}
    {F : HardhatPlugin} {k : String} (hF : F ∈ l) (hk : k ∈ optionNames F) :
    ∃ q, firstDefiner l k = some q := by
  have hsome : (l.find? (fun p => decide (k ∈ optionNames p))).isSome :=
    List.find?_isSome.mpr ⟨F, hF, by simpa using hk⟩
  cases hf : l.find? (fun p => decide (k ∈ optionNames p)) with
  | none => rw [hf] at hsome; cases hsome
  | some p => exact ⟨p.id, by rw [firstDefiner, hf]; rfl⟩

theorem lookupPluginId_after_plugin {reserved : List String}
    {m m₁ : GlobalOptionsMap} {P : HardhatPlugin}
    {front : List HardhatPlugin}
    (ha : addPluginOptions reserved P.id m P.globalOptions = .ok m₁)
    (hinv : ∀ k, lookupPluginId m k = firstDefiner front k) :
    ∀ k, lookupPluginId m₁ k = firstDefiner (front ++ [P]) k := by
  intro k
  rw [addPluginOptions_ok ha k, firstDefiner_append, hinv k,
    firstDefiner_single]
  rfl

theorem buildGo_error {reserved : List String} :
    ∀ (rest front : List HardhatPlugin) (m : GlobalOptionsMap)
      (e : OptionsError),
    (∀ k, lookupPluginId m k = firstDefiner front k) →
    (∀ P ∈ rest, ∀ i ∈ P.globalOptions, ValidOption reserved i) →
    (∀ P ∈ rest, (P.globalOptions.map (fun i => i.name)).Nodup) →
    ((front ++ rest).map (fun p => p.id)).Nodup →
    buildGlobalOptionsMapGo reserved m rest = .error e →
    ∃ off n q, e = .alreadyDefined off n q ∧ off ≠ q ∧
      (∃ P, P ∈ rest ∧ P.id = off ∧ n ∈ optionNames P) ∧
      firstDefiner (front ++ rest) n = some q := by
  intro rest
  induction rest with
  | nil =>
    intro front m e _ _ _ _ h
    rw [buildGlobalOptionsMapGo] at h
    cases h
  | cons P rest ih =>
    intro front m e hinv hvalid hnames hids h
    rw [buildGlobalOptionsMapGo] at h
    cases ha : addPluginOptions reserved P.id m P.globalOptions with
    | error e0 =>
      rw [ha] at h
      cases h
      obtain ⟨input, hi, q, he, hlk⟩ := addPluginOptions_error ha
        (hvalid P (by simp)) (hnames P (by simp))
      have hfdq : firstDefiner front input.name = some q := by
        rw [← hinv]; exact hlk
      obtain ⟨F, hF, hFid, _⟩ := firstDefiner_some hfdq
      have hne : P.id ≠ q := by
        intro hc
        rw [List.map_append] at hids
        have hdisj := (List.nodup_append.mp hids).2.2
        exact hdisj (List.mem_map_of_mem (fun p => p.id) hF)
          (by simp [hFid, hc])
      refine ⟨P.id, input.name, q, he, hne,
        ⟨P, by simp, rfl, List.mem_map_of_mem (fun i => i.name) hi⟩, ?_⟩
      rw [firstDefiner_append, hfdq]
    | ok m₁ =>
      rw [ha] at h
      have hinv' := lookupPluginId_after_plugin ha hinv
      have hids' : (((front ++ [P]) ++ rest).map (fun p => p.id)).Nodup := by
        rw [List.append_assoc]
        exact hids
      obtain ⟨off, n, q, he, hne, ⟨P', hP', hPid', hn'⟩, hfd⟩ :=
        ih (front ++ [P]) m₁ e hinv'
          (fun Q hQ => hvalid Q (by simp [hQ]))
          (fun Q hQ => hnames Q (by simp [hQ])) hids' h
      refine ⟨off, n, q, he, hne, ⟨P', by simp [hP'], hPid', hn'⟩, ?_⟩
      rw [List.append_assoc] at hfd
      exact hfd

theorem buildGo_ok {reserved : List String} :
    ∀ (rest front : List HardhatPlugin) (m m' : GlobalOptionsMap),
    (∀ k, lookupPluginId m k = firstDefiner front k) →
    (∀ P ∈ rest, (P.globalOptions.map (fun i => i.name)).Nodup) →
    buildGlobalOptionsMapGo reserved m rest = .ok m' →
    ∀ l₁ Q l₂, rest = l₁ ++ Q :: l₂ → ∀ k ∈ optionNames Q,
      firstDefiner (front ++ l₁) k = none := by
  intro rest
  induction rest with
  | nil =>
    intro front m m' _ _ _ l₁ Q l₂ hsplit
    exact absurd hsplit (by simp)
  | cons P rest ih =>
    intro front m m' hinv hnames h l₁ Q l₂ hsplit k hk
    rw [buildGlobalOptionsMapGo] at h
    cases ha : addPluginOptions reserved P.id m P.globalOptions with
    | error e0 => rw [ha] at h; cases h
    | ok m₁ =>
      rw [ha] at h
      cases l₁ with
      | nil =>
        injection hsplit with h1 h2
        subst h1
        have hfresh := addPluginOptions_ok_fresh ha (hnames P (by simp))
        obtain ⟨i, hi, hik⟩ := List.mem_map.mp hk
        have hlf := hfresh i hi
        rw [hinv, hik] at hlf
        simpa using hlf
      | cons R l₁' =>
        rw [List.cons_append] at hsplit
        injection hsplit with h1 h2
        subst h1
        have hinv' := lookupPluginId_after_plugin ha hinv
        have := ih (front ++ [P]) m₁ m' hinv'
          (fun S hS => hnames S (by simp [hS])) h l₁' Q l₂ h2 k hk
        rw [List.append_assoc] at this
        exact this

theorem mem_mem_split {α : Type} {l : List α} {a b : α} (ha : a ∈ l)
    (hb : b ∈ l) (hne : a ≠ b) :
    ∃ l₁ x l₂, l = l₁ ++ x :: l₂ ∧
      ((x = a ∧ b ∈ l₁) ∨ (x = b ∧ a ∈ l₁)) := by
  obtain ⟨s, t, rfl⟩ := List.append_of_mem ha
  rcases List.mem_append.mp hb with hbs | hbt
  · exact ⟨s, a, t, rfl, .inl ⟨rfl, hbs⟩⟩
  · rcases List.mem_cons.mp hbt with hba | hbt'
    · exact absurd hba.symm hne
    · obtain ⟨s', t', rfl⟩ := List.append_of_mem hbt'
      exact ⟨s ++ a :: s', b, t', by simp, .inr ⟨rfl, by simp⟩⟩

/-- Is the result an `AlreadyDefined` error? -/
def isAlreadyDefinedError {α : Type} : Except OptionsError α → Bool
  | .error (.alreadyDefined _ _ _) => true
  | _ => false

/-- Two otherwise-valid plugins that define the same option name, plus a
third plugin whose option name is grammatically invalid and which is
processed first. -/
def duplicateBehindInvalidPlugins : List HardhatPlugin :=
  [⟨"plugin1", [], [⟨"foo bar", "d", some .STRING, .str "x"⟩]⟩,
    ⟨"plugin2", [], [⟨"dup", "d", some .STRING, .str "x"⟩]⟩,
    ⟨"plugin3", [], [⟨"dup", "d", some .STRING, .str "x"⟩]⟩]

/-- Counterexample to C7 as stated: in this resolved plugin list two
distinct plugins (`plugin2`, `plugin3`) define the global option `dup`,
yet building the catalog fails with `InvalidName` (for `plugin1`'s
grammatically invalid option name, reached first), not with
`AlreadyDefined`. -/
theorem buildGlobalOptionsMap_alreadyDefined_counterexample :
    buildGlobalOptionsMap [] duplicateBehindInvalidPlugins
        = .error (.invalidName "foo bar") ∧
    isAlreadyDefinedError
        (buildGlobalOptionsMap [] duplicateBehindInvalidPlugins) = false :=
  ⟨rfl, rfl⟩

/-- C7 (amended): for every resolved plugin list (distinct plugin ids)
whose option definitions are all individually valid and whose plugins do
not repeat a name internally, if two distinct plugins define a global
option with the same name then building the catalog fails with an
`AlreadyDefined` error naming the offending plugin, the option, and the
distinct plugin that defined that option first. -/
theorem buildGlobalOptionsMap_alreadyDefined (reserved : List String)
    (plugins : List HardhatPlugin)
    (hids : (plugins.map (fun p => p.id)).Nodup)
    (hvalid : ∀ P ∈ plugins, ∀ i ∈ P.globalOptions, ValidOption reserved i)
    (hnames : ∀ P ∈ plugins, (P.globalOptions.map (fun i => i.name)).Nodup)
    (hdup : ∃ P, P ∈ plugins ∧ ∃ Q, Q ∈ plugins ∧ P.id ≠ Q.id ∧
      ∃ n, n ∈ optionNames P ∧ n ∈ optionNames Q) :
    ∃ off n q, buildGlobalOptionsMap reserved plugins
        = .error (.alreadyDefined off n q) ∧ off ≠ q ∧
      (∃ P, P ∈ plugins ∧ P.id = off ∧ n ∈ optionNames P) ∧
      firstDefiner plugins n = some q := by
  have hinv0 : ∀ k, lookupPluginId ([] : GlobalOptionsMap) k
      = firstDefiner [] k := fun k => rfl
  cases hres : buildGlobalOptionsMap reserved plugins with
  | ok m' =>
    exfalso
    obtain ⟨P, hP, Q, hQ, hne, n, hnP, hnQ⟩ := hdup
    have hPQ : P ≠ Q := fun hc => hne (by rw [hc])
    have hok := buildGo_ok plugins [] [] m' hinv0 hnames hres
    obtain ⟨l₁, X, l₂, hsplit, hcase⟩ := mem_mem_split hP hQ hPQ
    rcases hcase with ⟨rfl, hQl₁⟩ | ⟨rfl, hPl₁⟩
    · have hnone := hok l₁ X l₂ hsplit n hnP
      obtain ⟨q, hq⟩ := firstDefiner_isSome_of_mem hQl₁ hnQ
      rw [List.nil_append] at hnone
      rw [hq] at hnone
      cases hnone
    · have hnone := hok l₁ X l₂ hsplit n hnQ
      obtain ⟨q, hq⟩ := firstDefiner_isSome_of_mem hPl₁ hnP
      rw [List.nil_append] at hnone
      rw [hq] at hnone
      cases hnone
  | error e =>
    obtain ⟨off, n, q, he, hne, hPfacts, hfd⟩ :=
      buildGo_error plugins [] [] e hinv0 hvalid hnames
        (by simpa using hids) hres
    exact ⟨off, n, q, by rw [he], hne, hPfacts, by simpa using hfd⟩

/-- The two-plugin conflict scenario of the tests: both `plugin1` and
`plugin2` define a boolean `param1`. -/
def conflictingPlugins : List HardhatPlugin :=
  [⟨"plugin1", [], [⟨"param1", "param1 description", some .BOOLEAN, .bool true⟩]⟩,
    ⟨"plugin2", [], [⟨"param1", "param1 description 2", some .BOOLEAN, .bool false⟩]⟩]

/-- Witness for the amended C7 at a concrete input: the two-plugin conflict
yields an `AlreadyDefined` error naming distinct plugins. -/
theorem buildGlobalOptionsMap_alreadyDefined_witness :
    ∃ off n q, buildGlobalOptionsMap [] conflictingPlugins
        = .error (.alreadyDefined off n q) ∧ off ≠ q ∧
      (∃ P, P ∈ conflictingPlugins ∧ P.id = off ∧ n ∈ optionNames P) ∧
      firstDefiner conflictingPlugins n = some q :=
  buildGlobalOptionsMap_alreadyDefined [] conflictingPlugins (by decide)
    (by decide) (by decide)
    ⟨⟨"plugin1", [], [⟨"param1", "param1 description", some .BOOLEAN, .bool true⟩]⟩,
      by decide,
      ⟨"plugin2", [], [⟨"param1", "param1 description 2", some .BOOLEAN, .bool false⟩]⟩,
      by decide, by decide, "param1", by decide, by decide⟩

/-! ### Default values are type-checked at catalog-build time -/

/-- Is the result an `InvalidValueForType` error? -/
def isInvalidValueForTypeError {α : Type} : Except OptionsError α → Bool
  | .error (.invalidValueForType _ _ _) => true
  | _ => false

/-- An option definition whose name is grammatically invalid and whose
default value also fails to match its declared type. -/
def invalidNameBadDefaultInput : GlobalOptionInput :=
  ⟨"foo bar", "Foo description", some .BOOLEAN, .str "bar"⟩

/-- Counterexample to C9 as stated: this definition's default value does
not match its declared type, yet `buildGlobalOptionDefinition` (and the
catalog build) fails with `InvalidName` — the name is checked first — not
with `InvalidValueForType`. -/
theorem buildGlobalOptionDefinition_defaultValue_counterexample :
    buildGlobalOptionDefinition [] invalidNameBadDefaultInput
        = .error (.invalidName "foo bar") ∧
    isInvalidValueForTypeError
        (buildGlobalOptionDefinition [] invalidNameBadDefaultInput) = false ∧
    buildGlobalOptionsMap []
        [⟨"plugin1", [], [invalidNameBadDefaultInput]⟩]
        = .error (.invalidName "foo bar") :=
  ⟨rfl, rfl, rfl⟩

/-- C9 (amended): for every option definition whose name is valid and
unreserved but whose default value does not match its declared type,
`buildGlobalOptionDefinition` fails with `InvalidValueForType` carrying the
offending value, the name `"defaultValue"` and the declared type; and
`buildGlobalOptionsMap` fails identically when such a definition is the
first one processed — i.e. default values are type-checked when the catalog
is built, not only when coercing supplied strings. -/
theorem buildGlobalOptionDefinition_defaultValue_typeError
    (reserved : List String) (input : GlobalOptionInput)
    (hname : isValidParamNameCasing input.name = true)
    (hunres : input.name ∉ reserved)
    (hmismatch : input.defaultValue.matchesType (effectiveType input) = false) :
    buildGlobalOptionDefinition reserved input
      = .error (.invalidValueForType (renderValue input.defaultValue)
          "defaultValue" (effectiveType input)) ∧
    ∀ pluginId deps rest,
      buildGlobalOptionsMap reserved [⟨pluginId, deps, input :: rest⟩]
        = .error (.invalidValueForType (renderValue input.defaultValue)
            "defaultValue" (effectiveType input)) := by
  have hbuild : buildGlobalOptionDefinition reserved input
      = .error (.invalidValueForType (renderValue input.defaultValue)
          "defaultValue" (effectiveType input)) := by
    rw [buildGlobalOptionDefinition, if_neg (by simp [hname]), if_neg hunres,
      if_pos hmismatch]
  refine ⟨hbuild, ?_⟩
  intro pluginId deps rest
  rw [buildGlobalOptionsMap, buildGlobalOptionsMapGo, addPluginOptions,
    addOption]
  simp only [List.find?_nil, hbuild]

/-- The invalid definition of the tests: boolean `foo` with string default
`"bar"`. -/
def badDefaultInput : GlobalOptionInput :=
  ⟨"foo", "Foo description", some .BOOLEAN, .str "bar"⟩

/-- Witness for the amended C9 at the tests' concrete input. -/
theorem buildGlobalOptionDefinition_defaultValue_typeError_witness :
    buildGlobalOptionDefinition [] badDefaultInput
        = .error (.invalidValueForType "bar" "defaultValue" .BOOLEAN) ∧
    buildGlobalOptionsMap [] [⟨"plugin1", [], [badDefaultInput]⟩]
        = .error (.invalidValueForType "bar" "defaultValue" .BOOLEAN) := by
  have h := buildGlobalOptionDefinition_defaultValue_typeError []
    badDefaultInput (by decide) (by decide) (by decide)
  exact ⟨h.1, h.2 "plugin1" [] []⟩

/-! ## Task definitions and action-override chains

Modelled from the spec: `tasks/task-manager.ts` (not in the snapshot),
section 4.4 of the specification. The task tree is keyed by the full
`pathSegments` of each node, so it is modelled as a path-indexed map; each
node carries its stack of actions, most recent first. Building locates or
creates the node at the path; a first action is set, a later one overrides
by being pushed on top, and running composes the stack exactly like the
handler-chain protocol: the newest action outermost, each action's `next`
continuation being the composition of the remaining (earlier) actions. -/

/-- A task action has the shape of a chain handler: arguments, a `next`
continuation (the previous action chain), and the threaded world. -/
abbrev TaskAction (ω α ε ρ : Type) : Type := ChainHandler ω α ε ρ

/-- The task tree as a path-indexed map from `pathSegments` to the node's
action stack (most recent action first). -/
abbrev TaskTree (ω α ε ρ : Type) : Type :=
  List (List String × List (TaskAction ω α ε ρ))

/-- Modelled from the spec: applying one `TaskDefinition` during the build
phase: locate or create the node at `path`; if its action is unset, set
it, and if already set, push the new action so that the previous action
remains reachable through the new action's `next`. -/
def addTaskDefinition (tree : TaskTree ω α ε ρ) (path : List String)
    (act : TaskAction ω α ε ρ) : TaskTree ω α ε ρ :=
  match tree with
  | [] => [(path, [act])]
  | (p, stack) :: rest =>
    if p = path then (p, act :: stack) :: rest
    else (p, stack) :: addTaskDefinition rest path act

/-- The action stack of the node at `path`, if the node exists. -/
def taskActions (tree : TaskTree ω α ε ρ) (path : List String) :
    Option (List (TaskAction ω α ε ρ)) :=
  (tree.find? (fun e => e.1 == path)).map (fun e => e.2)

/-- Compose an action stack into a single runnable function: the newest
action is outermost and each action's `next` runs the remaining stack;
`bottom` is reached only if the original action itself calls `next`. -/
def composeTaskActions (stack : List (TaskAction ω α ε ρ))
    (bottom : PlainHandler ω α ε ρ) : PlainHandler ω α ε ρ :=
  stack.foldr (fun act next => fun a w => act a next w) bottom

/-- Modelled from the spec: running the task at `path` (`TaskNotFound`
is modelled as `none`). -/
def runTask (tree : TaskTree ω α ε ρ) (path : List String)
    (bottom : PlainHandler ω α ε ρ) (a : α) (w : ω) :
    Option (Except ε ρ × ω) :=
  match taskActions tree path with
  | none => none
  | some stack => some (composeTaskActions stack bottom a w)

theorem taskActions_addTaskDefinition_self (tree : TaskTree ω α ε ρ)
    (path : List String) (act : TaskAction ω α ε ρ) :
    taskActions (addTaskDefinition tree path act) path
      = some (act :: (taskActions tree path).getD []) := by
  induction tree with
  | nil => simp [addTaskDefinition, taskActions, List.find?]
  | cons head rest ih =>
    obtain ⟨p, stack⟩ := head
    by_cases hp : p = path
    · subst hp
      simp [addTaskDefinition, taskActions, List.find?]
    · have hbeq : (p == path) = false := by simpa using hp
      rw [addTaskDefinition, if_neg hp]
      simp only [taskActions, List.find?_cons, hbeq] at ih ⊢
      exact ih

/-- The original action of the example: appends `"original"` to the
arguments and returns them, never calling `next`. -/
def originalCompileAction : TaskAction Unit (List String) Unit (List String) :=
  fun a _next w => (.ok (a ++ ["original"]), w)

/-- A decorating override: annotates the arguments with its tag and
delegates to the previous action via `next`. -/
def overrideAction (tag : String) : TaskAction Unit (List String) Unit (List String) :=
  fun a next w => next (a ++ [tag]) w

/-- The example task tree: `compile` defined once and overridden twice. -/
def overriddenTree : TaskTree Unit (List String) Unit (List String) :=
  addTaskDefinition
    (addTaskDefinition
      (addTaskDefinition [] ["compile"] originalCompileAction)
      ["compile"] (overrideAction "override1"))
    ["compile"] (overrideAction "override2")

/-- A bottom continuation that is only reached below the original action;
the example never invokes it. -/
def unreachableBottom : PlainHandler Unit (List String) Unit (List String) :=
  fun _ w => (.error (), w)

/-- C8: applying a task definition to a path whose action is already set
wraps the node: the previous action stack remains reachable as the new
stack's tail; running a composed stack runs the newest action with its
`next` continuation being exactly the composition of the previous actions;
and running `compile` after two decorating overrides of the original
action executes both decorations and the original, newest override first.
-/
theorem taskOverride_wraps_previous :
    (∀ (tree : TaskTree ω α ε ρ) (path : List String)
      (act : TaskAction ω α ε ρ) (stack : List (TaskAction ω α ε ρ)),
      taskActions tree path = some stack →
      taskActions (addTaskDefinition tree path act) path
        = some (act :: stack)) ∧
    (∀ (act : TaskAction ω α ε ρ) (stack : List (TaskAction ω α ε ρ))
      (bottom : PlainHandler ω α ε ρ) (a : α) (w : ω),
      composeTaskActions (act :: stack) bottom a w
        = act a (composeTaskActions stack bottom) w) ∧
    (runTask overriddenTree ["compile"] unreachableBottom [] ()
      = some (.ok ["override2", "override1", "original"], ())) := by
  refine ⟨?_, fun _ _ _ _ _ => rfl, rfl⟩
  intro tree path act stack h
  rw [taskActions_addTaskDefinition_self, h]
  rfl

/-- The tree after the first override (used by the witness). -/
def onceOverriddenTree : TaskTree Unit (List String) Unit (List String) :=
  addTaskDefinition
    (addTaskDefinition [] ["compile"] originalCompileAction)
    ["compile"] (overrideAction "override1")

/-- Witness for C8 at a concrete input: overriding the once-overridden
`compile` node pushes the new action with the previous stack reachable
behind it. -/
theorem taskOverride_wraps_previous_witness :
    taskActions
        (addTaskDefinition onceOverriddenTree ["compile"]
          (overrideAction "override2")) ["compile"]
      = some [overrideAction "override2", overrideAction "override1",
          originalCompileAction] :=
  taskOverride_wraps_previous.1 onceOverriddenTree ["compile"]
    (overrideAction "override2")
    [overrideAction "override1", originalCompileAction] rfl

/-! ## Config resolution in `HardhatRuntimeEnvironmentImplementation.create`

Translated from `src/v-next/hardhat/src/internal/core/hre.ts`: after the
`resolveUserConfig` handler chain produces a resolved config, `create`
overwrites its `plugins` field with the resolved plugin list and its
`paths.root` with the resolved project root ("We override the plugins and
the proejct root, as we want to prevent the plugins from changing them"),
keeping every other field of the chain's result. Plugin-augmented config
fields are modelled by the opaque `extensions` payload, and the opaque
`tests`/`sources` path payloads by type parameters. -/

/-- The `ProjectPathsConfig` of `types/config.js` as used by `hre.ts`:
`configFile` models the optional `config` field. -/
structure ProjectPathsConfig (TestsT SourcesT : Type) where
  root : String
  configFile : Option String
  cache : String
  artifacts : String
  tests : TestsT
  sources : SourcesT

/-- The `HardhatConfig` shape used by `hre.ts`: resolved plugins, tasks,
paths, and the plugin-augmented remainder as an opaque payload. -/
structure HardhatConfig (PluginT TasksT TestsT SourcesT ExtraT : Type) where
  plugins : List PluginT
  tasks : TasksT
  paths : ProjectPathsConfig TestsT SourcesT
  extensions : ExtraT

/-- Translated from `hre.ts` lines 95-104: the overwrite of the resolved
config's `plugins` and `paths.root` after the handler chain completes. -/
def overridePluginsAndRoot
    (resolvedConfig : HardhatConfig PluginT TasksT TestsT SourcesT ExtraT)
    (resolvedProjectRoot : String) (resolvedPlugins : List PluginT) :
    HardhatConfig PluginT TasksT TestsT SourcesT ExtraT :=
  { resolvedConfig with
      paths := { resolvedConfig.paths with root := resolvedProjectRoot },
      plugins := resolvedPlugins }

/-- Translated from `hre.ts` lines 185-215 (`resolveUserConfig`): the
`config/resolveUserConfig` handler chain whose default implementation
returns the initial resolved config. -/
def resolveUserConfigModel
    (handlers : List (ChainHandler ω UserCfgT ε
      (HardhatConfig PluginT TasksT TestsT SourcesT ExtraT)))
    (initialResolvedConfig : HardhatConfig PluginT TasksT TestsT SourcesT ExtraT)
    (userCfg : UserCfgT) (w : ω) :
    Except ε (HardhatConfig PluginT TasksT TestsT SourcesT ExtraT) × ω :=
  runHandlerChain handlers userCfg (fun _ w2 => (.ok initialResolvedConfig, w2)) w

/-- Translated from `hre.ts` lines 87-104: resolve the user config through
the handler chain, then overwrite `plugins` and `paths.root`. -/
def createConfigModel
    (handlers : List (ChainHandler ω UserCfgT ε
      (HardhatConfig PluginT TasksT TestsT SourcesT ExtraT)))
    (initialResolvedConfig : HardhatConfig PluginT TasksT TestsT SourcesT ExtraT)
    (userCfg : UserCfgT) (resolvedProjectRoot : String)
    (resolvedPlugins : List PluginT) (w : ω) :
    Except ε (HardhatConfig PluginT TasksT TestsT SourcesT ExtraT) × ω :=
  match resolveUserConfigModel handlers initialResolvedConfig userCfg w with
  | (.ok resolvedConfig, w2) =>
    (.ok (overridePluginsAndRoot resolvedConfig resolvedProjectRoot resolvedPlugins), w2)
  | (.error e, w2) => (.error e, w2)

/-- C10: on every successful config creation the final config's `plugins`
field is the resolved plugin list and its `paths.root` is the resolved
project root, whatever the `resolveUserConfig` handler chain returned,
while every other field of the chain's result is kept unchanged. -/
theorem createConfig_overrides_plugins_and_root :
    (∀ (rc : HardhatConfig PluginT TasksT TestsT SourcesT ExtraT)
      (root : String) (ps : List PluginT),
      (overridePluginsAndRoot rc root ps).plugins = ps ∧
      (overridePluginsAndRoot rc root ps).paths.root = root ∧
      (overridePluginsAndRoot rc root ps).tasks = rc.tasks ∧
      (overridePluginsAndRoot rc root ps).extensions = rc.extensions ∧
      (overridePluginsAndRoot rc root ps).paths.configFile = rc.paths.configFile ∧
      (overridePluginsAndRoot rc root ps).paths.cache = rc.paths.cache ∧
      (overridePluginsAndRoot rc root ps).paths.artifacts = rc.paths.artifacts ∧
      (overridePluginsAndRoot rc root ps).paths.tests = rc.paths.tests ∧
      (overridePluginsAndRoot rc root ps).paths.sources = rc.paths.sources) ∧
    (∀ (handlers : List (ChainHandler ω UserCfgT ε
        (HardhatConfig PluginT TasksT TestsT SourcesT ExtraT)))
      (initial : HardhatConfig PluginT TasksT TestsT SourcesT ExtraT)
      (userCfg : UserCfgT) (root : String) (ps : List PluginT) (w w2 : ω)
      (cfg : HardhatConfig PluginT TasksT TestsT SourcesT ExtraT),
      createConfigModel handlers initial userCfg root ps w = (.ok cfg, w2) →
      cfg.plugins = ps ∧ cfg.paths.root = root ∧
      ∃ rc, resolveUserConfigModel handlers initial userCfg w = (.ok rc, w2) ∧
        cfg = overridePluginsAndRoot rc root ps) := by
  refine ⟨fun rc root ps => ⟨rfl, rfl, rfl, rfl, rfl, rfl, rfl, rfl, rfl⟩, ?_⟩
  intro handlers initial userCfg root ps w w2 cfg h
  rw [createConfigModel] at h
  rcases hc : resolveUserConfigModel handlers initial userCfg w with ⟨r, w3⟩
  rw [hc] at h
  cases r with
  | error e => cases h
  | ok rc =>
    obtain ⟨h1, h2⟩ := Prod.mk.injEq .. ▸ h
    injection h1 with h1
    exact ⟨h1 ▸ rfl, h1 ▸ rfl, rc, by rw [h2], h1.symm⟩

/-- A resolved config fabricated by a hostile handler: wrong plugins, wrong
root, and distinctive other fields. -/
def junkResolvedConfig : HardhatConfig String Nat Unit Unit String :=
  ⟨["evil-plugin"], 7, ⟨"/evil", none, "evil-cache", "evil-artifacts", (), ()⟩, "extra"⟩

/-- The initial resolved config of the example. -/
def initialExampleConfig : HardhatConfig String Nat Unit Unit String :=
  ⟨[], 0, ⟨"/project", none, "cache", "artifacts", (), ()⟩, "init"⟩

/-- A handler that ignores `next` and replaces the whole resolved config,
attempting to smuggle in its own plugin list and root. -/
def hijackingHandler :
    ChainHandler Unit String Unit (HardhatConfig String Nat Unit Unit String) :=
  fun _ _next w => (.ok junkResolvedConfig, w)

/-- Witness for C10 at a concrete input: even when the chain returns a
config with hostile `plugins` and `paths.root`, the created config carries
the resolved plugin list and project root. -/
theorem createConfig_overrides_plugins_and_root_witness :
    (overridePluginsAndRoot junkResolvedConfig "/project" ["good-plugin"]).plugins
        = ["good-plugin"] ∧
    (overridePluginsAndRoot junkResolvedConfig "/project" ["good-plugin"]).paths.root
        = "/project" ∧
    ∃ rc, resolveUserConfigModel [hijackingHandler] initialExampleConfig "user" ()
        = (.ok rc, ()) ∧
      overridePluginsAndRoot junkResolvedConfig "/project" ["good-plugin"]
        = overridePluginsAndRoot rc "/project" ["good-plugin"] :=
  createConfig_overrides_plugins_and_root.2 [hijackingHandler]
    initialExampleConfig "user" "/project" ["good-plugin"] () ()
    (overridePluginsAndRoot junkResolvedConfig "/project" ["good-plugin"]) rfl
